import Mathlib

/-!
Verification of the field-deduplication and selection-cache core of the
pdfComplete webapp.

The development shallowly embeds:
- `src/webapp/src/lib/dedupeFields.ts` (`normalizeName`, `mergeOccurrences`,
  `dedupeFields`);
- `src/webapp/src/stores/useFormStore.ts` (`selectionSignature`, the store
  state and its actions `loadPdfs`, `loadSchema`, `setSelectedPdfs`,
  `fetchCombinedFields`, `updateFieldValue`, `reset`).

JavaScript `Record`/`Map` objects are modelled as association lists in
insertion order: property/entry update keeps the position of an existing key
and appends a fresh key at the end, and lookup returns the (unique) binding.
`[...new Set(xs)]` is modelled by `jsSetDedup`, which keeps the first
occurrence of each element.  The store's `async` actions are modelled as
atomic state transformers (the claims under study quantify over sequential
executions only); the external service's answer to each call is supplied as
an `Except` value on the action, and each step reports the list of
`getCombinedFields` invocations it performed together with the propagated
error, if any.
-/

namespace PdfComplete

/-- Field kinds, from `FieldKind` in `types/api.ts`:
`'text' | 'number' | 'checkbox' | 'radio' | 'date'`. -/
inductive FieldKind where
  | text
  | number
  | checkbox
  | radio
  | date
deriving DecidableEq, Repr

/-- `FieldDef` from `types/api.ts`.  `occurrences` maps a PDF filename to the
number of occurrences of the field in that PDF; it is a JS `Record`, modelled
as an association list. -/
structure FieldDef where
  name : String
  kind : FieldKind
  required : Option Bool := none
  options : Option (List String) := none
  occurrences : Option (List (String × Nat)) := none
deriving DecidableEq, Repr

/-- `CombinedFieldsResponse` from `types/api.ts`. -/
structure CombinedFieldsResponse where
  fields : List FieldDef
  notes : Option (List String) := none
deriving DecidableEq, Repr

/-- `SchemaMeta` from `types/api.ts` (only `version` is consumed by the store). -/
structure SchemaMeta where
  version : String
deriving DecidableEq, Repr

/-- The single error kind raised by the service boundary
(`ApiError` in `api/api.ts`: message, HTTP status, url). -/
structure ServiceError where
  message : String
  statusCode : Nat
  url : String
deriving DecidableEq, Repr

/-- Lookup in a JS object / `Map`: the binding of the first matching key. -/
def recordGet {β : Type} (k : String) : List (String × β) → Option β
  | [] => none
  | (k', v) :: rest => if k' = k then some v else recordGet k rest

/-- Assignment in a JS object / `Map`: an existing key keeps its position and
is rebound; a fresh key is appended at the end. -/
def recordSet {β : Type} (k : String) (v : β) : List (String × β) → List (String × β)
  | [] => [(k, v)]
  | (k', v') :: rest => if k' = k then (k', v) :: rest else (k', v') :: recordSet k v rest

/-- Insertion into a JS `Set`'s element list: append the element unless it is
already present. -/
def addIfNew (acc : List String) (x : String) : List String :=
  if x ∈ acc then acc else acc ++ [x]

/-- `[...new Set(xs)]`: drop duplicates keeping the first occurrence of each
element, in order. -/
def jsSetDedup (xs : List String) : List String :=
  xs.foldl addIfNew []

/-- `String.prototype.trim`: strip whitespace from both ends (modelled on the
character list so that it evaluates by kernel reduction). -/
def jsTrim (s : String) : String :=
  String.mk (((s.data.dropWhile Char.isWhitespace).reverse.dropWhile Char.isWhitespace).reverse)

/-- `String.prototype.toLowerCase`, character by character. -/
def jsToLower (s : String) : String :=
  String.mk (s.data.map Char.toLower)

/-- `normalizeName` from `dedupeFields.ts`: `name.trim().toLowerCase()`. -/
def normalizeName (name : String) : String :=
  jsToLower (jsTrim name)

/-- One iteration of the `Object.entries` loops in `mergeOccurrences`:
`out[pdf] = (out[pdf] ?? 0) + (count ?? 0)` for each entry of `src`. -/
def occEntriesAdd (out src : List (String × Nat)) : List (String × Nat) :=
  src.foldl (fun acc p => recordSet p.1 ((recordGet p.1 acc).getD 0 + p.2) acc) out

/-- `mergeOccurrences` from `dedupeFields.ts`: `undefined` when both inputs
are `undefined`, otherwise the per-PDF sums, keys of `a` first then fresh keys
of `b`. -/
def mergeOccurrences (a b : Option (List (String × Nat))) : Option (List (String × Nat)) :=
  match a, b with
  | none, none => none
  | a, b => some (occEntriesAdd (occEntriesAdd [] (a.getD [])) (b.getD []))

/-- The shallow clone performed on first insertion in `dedupeFields`:
`{ ...f, options: f.options ? [...new Set(f.options)] : undefined,
occurrences: f.occurrences ? { ...f.occurrences } : undefined }`.  Copying the
occurrences object is the identity in a pure model. -/
def cloneField (f : FieldDef) : FieldDef :=
  { f with options := f.options.map jsSetDedup }

/-- The merge performed in `dedupeFields` when a later descriptor `f` hits the
key of a stored descriptor `existing`: occurrences are summed per PDF, options
become the deduplicated union (existing first, then new) whenever either side
has an options array, and `required` is promoted to `true` when `f.required`
is truthy. -/
def mergeField (existing f : FieldDef) : FieldDef :=
  let base := { existing with occurrences := mergeOccurrences existing.occurrences f.occurrences }
  let withOpts :=
    if existing.options.isSome || f.options.isSome then
      { base with options := some (jsSetDedup (existing.options.getD [] ++ f.options.getD [])) }
    else base
  if f.required.getD false then { withOpts with required := some true } else withOpts

/-- The body of the `for (const f of fields)` loop in `dedupeFields`, acting
on the `Map` (modelled as an association list in insertion order). -/
def dedupeStep (m : List (String × FieldDef)) (f : FieldDef) : List (String × FieldDef) :=
  let key := normalizeName f.name
  match recordGet key m with
  | none => m ++ [(key, cloneField f)]
  | some existing => recordSet key (mergeField existing f) m

/-- `dedupeFields` from `dedupeFields.ts`: fold the input into the map and
return `Array.from(map.values())`. -/
def dedupeFields (fields : List FieldDef) : List FieldDef :=
  (fields.foldl dedupeStep []).map Prod.snd

/-- Lexicographic comparison of character lists, comparing code points. -/
def charListLe : List Char → List Char → Bool
  | [], _ => true
  | _ :: _, [] => false
  | a :: as, b :: bs => if a < b then true else if b < a then false else charListLe as bs

/-- The total order used by the `sort` comparator
`(a, b) => a.localeCompare(b)` in `selectionSignature`, modelled as the
lexicographic order on code points. -/
def sigLe (a b : String) : Prop :=
  charListLe a.data b.data = true

instance : DecidableRel sigLe :=
  fun a b => inferInstanceAs (Decidable (charListLe a.data b.data = true))

/-- `selectionSignature` from `useFormStore.ts`:
`[...pdfs].sort((a, b) => a.localeCompare(b)).join('||')`. -/
def selectionSignature (pdfs : List String) : String :=
  String.intercalate "||" (List.insertionSort sigLe pdfs)

/-- The store's state (`FormStoreState` minus the action closures).
`fieldValues` holds opaque values; they are modelled as strings. -/
structure StoreState where
  allPdfs : List String
  selectedPdfs : List String
  combinedFields : List FieldDef
  fieldValues : List (String × String)
  schemaVersion : Option String
  isLoadingPdfs : Bool
  isLoadingFields : Bool
  isFilling : Bool
  fieldsCache : List (String × List FieldDef)
deriving DecidableEq, Repr

/-- The initializer passed to `create(...)`, which is also the state installed
by `reset()`. -/
def initialState : StoreState where
  allPdfs := []
  selectedPdfs := []
  combinedFields := []
  fieldValues := []
  schemaVersion := none
  isLoadingPdfs := false
  isLoadingFields := false
  isFilling := false
  fieldsCache := []

/-- Result of running one store action sequentially: the new state, the list
of arguments of the `getCombinedFields` invocations performed, and the error
propagated to the caller, if any. -/
structure StepOut where
  state : StoreState
  calls : List (List String)
  err : Option ServiceError
deriving DecidableEq, Repr

/-- `fetchCombinedFields` from `useFormStore.ts` run to completion with the
service's answer `resp`: serve from cache when the signature is present;
short-circuit an empty selection; otherwise invoke the service, dedupe and
cache on success, and clear the loading flag on both paths (`finally`). -/
def fetchCombinedFieldsStep (s : StoreState)
    (resp : Except ServiceError CombinedFieldsResponse) : StepOut :=
  let pdfs := s.selectedPdfs
  let sig := selectionSignature pdfs
  match recordGet sig s.fieldsCache with
  | some cached => { state := { s with combinedFields := cached }, calls := [], err := none }
  | none =>
    if pdfs.length = 0 then
      { state := { s with combinedFields := [] }, calls := [], err := none }
    else
      match resp with
      | Except.ok res =>
        let deduped := dedupeFields res.fields
        { state := { s with
                      combinedFields := deduped
                      fieldsCache := recordSet sig deduped s.fieldsCache
                      isLoadingFields := false }
          calls := [pdfs]
          err := none }
      | Except.error e =>
        { state := { s with isLoadingFields := false }
          calls := [pdfs]
          err := some e }

/-- The store actions, each carrying the external service's answer where the
source awaits one. -/
inductive Action where
  | loadPdfs (resp : Except ServiceError (List String))
  | loadSchema (resp : Except ServiceError SchemaMeta)
  | setSelectedPdfs (pdfs : List String) (resp : Except ServiceError CombinedFieldsResponse)
  | fetchCombinedFields (resp : Except ServiceError CombinedFieldsResponse)
  | updateFieldValue (name value : String)
  | reset
deriving Repr

/-- Sequential execution of one store action. -/
def runStep (s : StoreState) : Action → StepOut
  | Action.loadPdfs (Except.ok pdfs) =>
    { state := { s with allPdfs := pdfs, isLoadingPdfs := false }, calls := [], err := none }
  | Action.loadPdfs (Except.error e) =>
    { state := { s with isLoadingPdfs := false }, calls := [], err := some e }
  | Action.loadSchema (Except.ok schema) =>
    { state := { s with schemaVersion := some schema.version }, calls := [], err := none }
  | Action.loadSchema (Except.error e) =>
    { state := s, calls := [], err := some e }
  | Action.setSelectedPdfs pdfs resp =>
    fetchCombinedFieldsStep { s with selectedPdfs := pdfs } resp
  | Action.fetchCombinedFields resp =>
    fetchCombinedFieldsStep s resp
  | Action.updateFieldValue name value =>
    { state := { s with fieldValues := recordSet name value s.fieldValues }, calls := [], err := none }
  | Action.reset =>
    { state := initialState, calls := [], err := none }

/-- Sequential execution of a list of store actions, accumulating the
`getCombinedFields` invocations. -/
def runTrace (s : StoreState) : List Action → StoreState × List (List String)
  | [] => (s, [])
  | a :: rest =>
    let out := runStep s a
    let r := runTrace out.state rest
    (r.1, out.calls ++ r.2)

/-! ### Derived notions used by the statements -/

/-- The merge key of a descriptor: its trimmed, lowercased name. -/
def normKey (f : FieldDef) : String :=
  normalizeName f.name

/-- The descriptors of `x` contributing to the entry with merge key `k`. -/
def contribs (x : List FieldDef) (k : String) : List FieldDef :=
  x.filter (fun f => normKey f = k)

/-- The options list the spec prescribes for an entry merged from the
descriptors `l` (in input order): absent when no contributor carries options,
otherwise the first-seen-order deduplicated union of the contributed lists. -/
def optionsUnion (l : List FieldDef) : Option (List String) :=
  if l.all (fun f => f.options.isNone) then none
  else some (jsSetDedup ((l.map (fun f => f.options.getD [])).flatten))

/-- The count an optional occurrences mapping assigns to document `d`,
reading an absent key (or an absent mapping) as `0`. -/
def occAtO : Option (List (String × Nat)) → String → Nat
  | none, _ => 0
  | some m, d => (recordGet d m).getD 0

/-- The count a descriptor's occurrences mapping assigns to document `d`. -/
def occAt (f : FieldDef) (d : String) : Nat :=
  occAtO f.occurrences d

/-- Sum of the counts that the entries of `l` attach to document `d`. -/
def sumCounts (l : List (String × Nat)) (d : String) : Nat :=
  ((l.filter (fun p => p.1 = d)).map Prod.snd).sum

/-- An occurrences mapping is well formed when its keys are distinct, as the
keys of a JS `Record` always are. -/
def OccWF (f : FieldDef) : Prop :=
  ∀ l, f.occurrences = some l → (l.map Prod.fst).Nodup

/-- A field list as the store is meant to hold it: no two entries share a
merge key, and the list is an output of `dedupeFields`. -/
def DedupedList (l : List FieldDef) : Prop :=
  (l.map normKey).Nodup ∧ ∃ y, l = dedupeFields y

/-- Actions in the scope of the cache claim: `setSelectedPdfs` or
`fetchCombinedFields` calls whose service response succeeds. -/
def okFetchAction : Action → Prop
  | Action.setSelectedPdfs _ (Except.ok _) => True
  | Action.fetchCombinedFields (Except.ok _) => True
  | _ => False

/-- The store invariant claimed by C10: the current combined list and every
cached list are deduplicated. -/
def StoreInv (s : StoreState) : Prop :=
  DedupedList s.combinedFields ∧ ∀ kv ∈ s.fieldsCache, DedupedList kv.2

/-- The per-entry part of the `dedupeFields` loop invariant, relating the
stored descriptor `e` under key `k` to the processed prefix `p`. -/
def EntryInv (p : List FieldDef) (k : String) (e : FieldDef) : Prop :=
  normKey e = k ∧
  (∃ c cs, contribs p k = c :: cs ∧ e.name = c.name ∧ e.kind = c.kind) ∧
  e.options = optionsUnion (contribs p k) ∧
  ((∀ g ∈ contribs p k, OccWF g) →
    OccWF e ∧ ∀ d, occAt e d = ((contribs p k).map (fun f => occAt f d)).sum)

/-- The `dedupeFields` loop invariant: the map's keys are the first-seen
normalized names of the processed prefix, and every entry satisfies
`EntryInv`. -/
def MapInv (p : List FieldDef) (m : List (String × FieldDef)) : Prop :=
  m.map Prod.fst = jsSetDedup (p.map normKey) ∧
  ∀ q ∈ m, EntryInv p q.1 q.2

/-! ### Association-list (JS object / `Map`) lemmas -/

theorem mem_map_fst_iff {β : Type} {k : String} {m : List (String × β)} :
    k ∈ m.map Prod.fst ↔ ∃ v, (k, v) ∈ m := by
  constructor
  · intro h
    rcases List.mem_map.mp h with ⟨⟨k', v⟩, hmem, hk⟩
    exact ⟨v, by simpa [← hk] using hmem⟩
  · rintro ⟨v, hv⟩
    exact List.mem_map_of_mem Prod.fst hv

theorem recordGet_eq_none_iff {β : Type} (k : String) (m : List (String × β)) :
    recordGet k m = none ↔ k ∉ m.map Prod.fst := by
  induction m with
  | nil => simp [recordGet]
  | cons q rest ih =>
    obtain ⟨k', v⟩ := q
    by_cases h : k' = k
    · subst h
      simp [recordGet]
    · simp only [recordGet, if_neg h, List.map_cons, List.mem_cons, ih]
      constructor
      · intro hnk hor
        rcases hor with hk | hk
        · exact h hk.symm
        · exact hnk hk
      · intro hnk hk
        exact hnk (Or.inr hk)

theorem recordGet_isSome_iff {β : Type} (k : String) (m : List (String × β)) :
    (recordGet k m).isSome ↔ k ∈ m.map Prod.fst := by
  rw [← not_iff_not]
  simp only [Option.not_isSome_iff_eq_none, recordGet_eq_none_iff]

theorem recordGet_mem {β : Type} {k : String} {m : List (String × β)} {v : β}
    (h : recordGet k m = some v) : (k, v) ∈ m := by
  induction m with
  | nil => simp [recordGet] at h
  | cons q rest ih =>
    obtain ⟨k', v'⟩ := q
    by_cases hk : k' = k
    · subst hk
      rw [recordGet, if_pos rfl] at h
      injection h with h
      subst h
      exact List.mem_cons_self _ _
    · simp only [recordGet, if_neg hk] at h
      exact List.mem_cons_of_mem _ (ih h)

theorem recordGet_recordSet_self {β : Type} (k : String) (v : β) (m : List (String × β)) :
    recordGet k (recordSet k v m) = some v := by
  induction m with
  | nil => simp [recordGet, recordSet]
  | cons q rest ih =>
    obtain ⟨k', v'⟩ := q
    by_cases h : k' = k
    · simp [recordSet, recordGet, if_pos h, h]
    · simp [recordSet, recordGet, if_neg h, h, ih]

theorem recordGet_recordSet_ne {β : Type} {k k' : String} (v : β) (m : List (String × β))
    (h : k' ≠ k) : recordGet k' (recordSet k v m) = recordGet k' m := by
  induction m with
  | nil => simp [recordGet, recordSet, if_neg (Ne.symm h)]
  | cons q rest ih =>
    obtain ⟨k'', v''⟩ := q
    by_cases hk : k'' = k
    · subst hk
      have hne : ¬ k'' = k' := fun hh => h (hh ▸ rfl)
      simp [recordSet, recordGet, if_neg hne]
    · by_cases hk' : k'' = k'
      · simp [recordSet, recordGet, if_neg hk, if_pos hk']
      · simp [recordSet, recordGet, if_neg hk, if_neg hk', ih]

theorem recordSet_map_fst_of_mem {β : Type} {k : String} (v : β) {m : List (String × β)}
    (h : k ∈ m.map Prod.fst) : (recordSet k v m).map Prod.fst = m.map Prod.fst := by
  induction m with
  | nil => simp at h
  | cons q rest ih =>
    obtain ⟨k', v'⟩ := q
    by_cases hk : k' = k
    · simp [recordSet, if_pos hk]
    · have h' : k ∈ rest.map Prod.fst := by
        rcases List.mem_cons.mp h with hh | hh
        · exact absurd hh.symm hk
        · exact hh
      simp [recordSet, if_neg hk, ih h']

theorem recordSet_of_not_mem {β : Type} {k : String} (v : β) {m : List (String × β)}
    (h : k ∉ m.map Prod.fst) : recordSet k v m = m ++ [(k, v)] := by
  induction m with
  | nil => simp [recordSet]
  | cons q rest ih =>
    obtain ⟨k', v'⟩ := q
    have hne : ¬ k' = k := fun hh => h (by simp [hh])
    have h' : k ∉ rest.map Prod.fst := fun hh => h (by simp [hh])
    simp [recordSet, if_neg hne, ih h']

theorem mem_recordSet_weak {β : Type} {k : String} {v : β} {m : List (String × β)} {q}
    (h : q ∈ recordSet k v m) : q = (k, v) ∨ q ∈ m := by
  induction m with
  | nil => simpa [recordSet] using h
  | cons p rest ih =>
    obtain ⟨k', v'⟩ := p
    by_cases hk : k' = k
    · rw [recordSet, if_pos hk] at h
      rcases List.mem_cons.mp h with h | h
      · exact Or.inl (by simpa [hk] using h)
      · exact Or.inr (List.mem_cons_of_mem _ h)
    · rw [recordSet, if_neg hk] at h
      rcases List.mem_cons.mp h with h | h
      · exact Or.inr (by simp [h])
      · rcases ih h with h' | h'
        · exact Or.inl h'
        · exact Or.inr (List.mem_cons_of_mem _ h')

theorem mem_recordSet_nodup {β : Type} {k : String} {v : β} {m : List (String × β)} {q}
    (hnd : (m.map Prod.fst).Nodup) (h : q ∈ recordSet k v m) :
    q = (k, v) ∨ (q ∈ m ∧ q.1 ≠ k) := by
  induction m with
  | nil =>
    rw [recordSet] at h
    exact Or.inl (by simpa using h)
  | cons p rest ih =>
    obtain ⟨k', v'⟩ := p
    rw [List.map_cons, List.nodup_cons] at hnd
    by_cases hk : k' = k
    · subst hk
      rw [recordSet, if_pos rfl] at h
      rcases List.mem_cons.mp h with h | h
      · exact Or.inl h
      · refine Or.inr ⟨List.mem_cons_of_mem _ h, fun hq => ?_⟩
        have hmem : q.1 ∈ rest.map Prod.fst := List.mem_map_of_mem Prod.fst h
        exact hnd.1 (hq ▸ hmem)
    · rw [recordSet, if_neg hk] at h
      rcases List.mem_cons.mp h with h | h
      · exact Or.inr ⟨by simp [h], by simp [h, hk]⟩
      · rcases ih hnd.2 h with h' | h'
        · exact Or.inl h'
        · exact Or.inr ⟨List.mem_cons_of_mem _ h'.1, h'.2⟩

theorem recordSet_nodup_fst {β : Type} (k : String) (v : β) {m : List (String × β)}
    (hnd : (m.map Prod.fst).Nodup) : ((recordSet k v m).map Prod.fst).Nodup := by
  by_cases h : k ∈ m.map Prod.fst
  · rw [recordSet_map_fst_of_mem v h]
    exact hnd
  · rw [recordSet_of_not_mem v h]
    rw [List.map_append]
    exact List.Nodup.append hnd (by simp) (by simpa [List.disjoint_singleton] using h)

theorem nodup_fst_mem_unique {β : Type} {k : String} {a b : β} {m : List (String × β)}
    (hnd : (m.map Prod.fst).Nodup) (ha : (k, a) ∈ m) (hb : (k, b) ∈ m) : a = b := by
  induction m with
  | nil => simp at ha
  | cons p rest ih =>
    obtain ⟨k', v'⟩ := p
    rw [List.map_cons, List.nodup_cons] at hnd
    rcases List.mem_cons.mp ha with ha | ha <;> rcases List.mem_cons.mp hb with hb | hb
    · rw [Prod.mk.injEq] at ha hb
      rw [ha.2, hb.2]
    · rw [Prod.mk.injEq] at ha
      have hmem : k ∈ rest.map Prod.fst := List.mem_map_of_mem Prod.fst hb
      exact absurd (ha.1 ▸ hmem) hnd.1
    · rw [Prod.mk.injEq] at hb
      have hmem : k ∈ rest.map Prod.fst := List.mem_map_of_mem Prod.fst ha
      exact absurd (hb.1 ▸ hmem) hnd.1
    · exact ih hnd.2 ha hb

/-! ### `jsSetDedup` lemmas -/

theorem mem_addIfNew {acc : List String} {x y : String} :
    x ∈ addIfNew acc y ↔ x ∈ acc ∨ x = y := by
  unfold addIfNew
  by_cases h : y ∈ acc
  · rw [if_pos h]
    constructor
    · exact Or.inl
    · rintro (hx | hx)
      · exact hx
      · exact hx ▸ h
  · rw [if_neg h]
    simp

theorem nodup_addIfNew {acc : List String} (y : String) (h : acc.Nodup) :
    (addIfNew acc y).Nodup := by
  unfold addIfNew
  by_cases hy : y ∈ acc
  · rwa [if_pos hy]
  · rw [if_neg hy]
    exact List.Nodup.append h (by simp) (by simpa [List.disjoint_singleton] using hy)

theorem mem_foldl_addIfNew (l : List String) (acc : List String) (x : String) :
    x ∈ l.foldl addIfNew acc ↔ x ∈ acc ∨ x ∈ l := by
  induction l generalizing acc with
  | nil => simp
  | cons y l ih =>
    rw [List.foldl_cons, ih, mem_addIfNew]
    simp [or_assoc]

theorem nodup_foldl_addIfNew (l : List String) {acc : List String} (h : acc.Nodup) :
    (l.foldl addIfNew acc).Nodup := by
  induction l generalizing acc with
  | nil => exact h
  | cons y l ih => exact ih (nodup_addIfNew y h)

theorem foldl_addIfNew_of_fresh {l : List String} (acc : List String) (hnd : l.Nodup)
    (hfresh : ∀ x ∈ l, x ∉ acc) : l.foldl addIfNew acc = acc ++ l := by
  induction l generalizing acc with
  | nil => simp
  | cons y l ih =>
    rw [List.nodup_cons] at hnd
    have hy : y ∉ acc := hfresh y (List.mem_cons_self _ _)
    rw [List.foldl_cons]
    rw [show addIfNew acc y = acc ++ [y] from by rw [addIfNew, if_neg hy]]
    rw [ih (acc ++ [y]) hnd.2 ?fresh]
    · simp
    case fresh =>
      intro x hx
      rw [List.mem_append]
      rintro (hmem | hmem)
      · exact hfresh x (List.mem_cons_of_mem _ hx) hmem
      · rw [List.mem_singleton] at hmem
        exact hnd.1 (hmem ▸ hx)

theorem jsSetDedup_nodup (l : List String) : (jsSetDedup l).Nodup :=
  nodup_foldl_addIfNew l List.nodup_nil

theorem mem_jsSetDedup {l : List String} {x : String} : x ∈ jsSetDedup l ↔ x ∈ l := by
  rw [jsSetDedup, mem_foldl_addIfNew]
  simp

theorem jsSetDedup_fixed (l : List String) : (jsSetDedup l).foldl addIfNew [] = jsSetDedup l := by
  rw [foldl_addIfNew_of_fresh [] (jsSetDedup_nodup l) (by simp)]
  simp

theorem jsSetDedup_append_left (a b : List String) :
    jsSetDedup (jsSetDedup a ++ b) = jsSetDedup (a ++ b) := by
  show (jsSetDedup a ++ b).foldl addIfNew [] = (a ++ b).foldl addIfNew []
  rw [List.foldl_append, List.foldl_append, jsSetDedup_fixed a]
  rfl

theorem jsSetDedup_idem (a : List String) : jsSetDedup (jsSetDedup a) = jsSetDedup a := by
  have h := jsSetDedup_append_left a []
  simpa using h

/-! ### Occurrence-sum lemmas -/

theorem sumCounts_nil (d : String) : sumCounts [] d = 0 := rfl

theorem sumCounts_cons (p : String × Nat) (l : List (String × Nat)) (d : String) :
    sumCounts (p :: l) d = (if p.1 = d then p.2 else 0) + sumCounts l d := by
  rw [sumCounts, sumCounts, List.filter_cons]
  by_cases h : p.1 = d
  · simp [h]
  · simp [h]

theorem sumCounts_eq_zero_of_not_mem {l : List (String × Nat)} {d : String}
    (h : d ∉ l.map Prod.fst) : sumCounts l d = 0 := by
  induction l with
  | nil => rfl
  | cons p l ih =>
    rw [sumCounts_cons]
    have hne : ¬ p.1 = d := fun hh => h (by simp [hh])
    rw [if_neg hne, ih (fun hh => h (by simp [hh]))]

theorem recordGet_getD_eq_sumCounts {l : List (String × Nat)} {d : String}
    (hnd : (l.map Prod.fst).Nodup) : (recordGet d l).getD 0 = sumCounts l d := by
  induction l with
  | nil => rfl
  | cons p l ih =>
    obtain ⟨k, v⟩ := p
    rw [List.map_cons, List.nodup_cons] at hnd
    rw [sumCounts_cons]
    by_cases h : k = d
    · subst h
      rw [recordGet, if_pos rfl]
      rw [if_pos rfl, sumCounts_eq_zero_of_not_mem hnd.1]
      simp
    · rw [recordGet, if_neg h, if_neg h, ih hnd.2]
      simp

theorem occEntriesAdd_getD (src : List (String × Nat)) (out : List (String × Nat)) (d : String) :
    (recordGet d (occEntriesAdd out src)).getD 0 =
      (recordGet d out).getD 0 + sumCounts src d := by
  induction src generalizing out with
  | nil => simp [occEntriesAdd, sumCounts_nil]
  | cons p src ih =>
    rw [show occEntriesAdd out (p :: src) =
          occEntriesAdd (recordSet p.1 ((recordGet p.1 out).getD 0 + p.2) out) src from rfl]
    rw [ih, sumCounts_cons]
    by_cases h : p.1 = d
    · subst h
      rw [recordGet_recordSet_self, if_pos rfl]
      simp [Nat.add_assoc]
    · have hne : d ≠ p.1 := fun hh => h hh.symm
      rw [recordGet_recordSet_ne _ _ hne, if_neg h]
      simp [Nat.add_assoc]

theorem occEntriesAdd_nodup_fst (src : List (String × Nat)) {out : List (String × Nat)}
    (h : (out.map Prod.fst).Nodup) : ((occEntriesAdd out src).map Prod.fst).Nodup := by
  induction src generalizing out with
  | nil => exact h
  | cons p src ih =>
    rw [show occEntriesAdd out (p :: src) =
          occEntriesAdd (recordSet p.1 ((recordGet p.1 out).getD 0 + p.2) out) src from rfl]
    exact ih (recordSet_nodup_fst _ _ h)

/-- The count that `mergeOccurrences` attaches to any document is the sum of
the two sides' counts, provided each side has distinct keys (as a JS `Record`
always does). -/
theorem mergeOccurrences_occAtO (a b : Option (List (String × Nat)))
    (ha : ∀ l, a = some l → (l.map Prod.fst).Nodup)
    (hb : ∀ l, b = some l → (l.map Prod.fst).Nodup) (d : String) :
    occAtO (mergeOccurrences a b) d = occAtO a d + occAtO b d := by
  cases a with
  | none =>
    cases b with
    | none => rfl
    | some lb =>
      show (recordGet d (occEntriesAdd (occEntriesAdd [] []) lb)).getD 0 =
        0 + (recordGet d lb).getD 0
      rw [occEntriesAdd_getD, occEntriesAdd_getD]
      simp [recordGet, sumCounts_nil, recordGet_getD_eq_sumCounts (hb lb rfl)]
  | some la =>
    have hmerge : mergeOccurrences (some la) b =
        some (occEntriesAdd (occEntriesAdd [] la) (b.getD [])) := by cases b <;> rfl
    rw [show occAtO (mergeOccurrences (some la) b) d =
          occAtO (some (occEntriesAdd (occEntriesAdd [] la) (b.getD []))) d from by
        rw [hmerge]]
    show (recordGet d (occEntriesAdd (occEntriesAdd [] la) (b.getD []))).getD 0 = _
    rw [occEntriesAdd_getD, occEntriesAdd_getD]
    cases b with
    | none =>
      simp [occAtO, recordGet, sumCounts_nil, recordGet_getD_eq_sumCounts (ha la rfl)]
    | some lb =>
      simp [occAtO, recordGet, sumCounts_nil, recordGet_getD_eq_sumCounts (ha la rfl),
        recordGet_getD_eq_sumCounts (hb lb rfl)]

/-- `mergeOccurrences` always produces a mapping with distinct keys. -/
theorem mergeOccurrences_nodup_fst (a b : Option (List (String × Nat))) :
    ∀ l, mergeOccurrences a b = some l → (l.map Prod.fst).Nodup := by
  intro l h
  have key : ∀ (la lb : List (String × Nat)),
      ((occEntriesAdd (occEntriesAdd [] la) lb).map Prod.fst).Nodup := by
    intro la lb
    exact occEntriesAdd_nodup_fst lb (occEntriesAdd_nodup_fst la List.nodup_nil)
  cases a with
  | none =>
    cases b with
    | none => simp [mergeOccurrences] at h
    | some lb =>
      rw [show mergeOccurrences none (some lb) =
            some (occEntriesAdd (occEntriesAdd [] []) lb) from rfl] at h
      injection h with h
      exact h ▸ key [] lb
  | some la =>
    rw [show mergeOccurrences (some la) b =
          some (occEntriesAdd (occEntriesAdd [] la) (b.getD [])) from by
        cases b <;> rfl] at h
    injection h with h
    exact h ▸ key la (b.getD [])

/-! ### Contributor lemmas -/

theorem mem_contribs {x : List FieldDef} {k : String} {g : FieldDef}
    (h : g ∈ contribs x k) : g ∈ x ∧ normKey g = k := by
  have h' := List.mem_filter.mp h
  exact ⟨h'.1, of_decide_eq_true h'.2⟩

theorem contribs_append (x y : List FieldDef) (k : String) :
    contribs (x ++ y) k = contribs x k ++ contribs y k :=
  List.filter_append _ _

theorem contribs_single_pos {f : FieldDef} {k : String} (h : normKey f = k) :
    contribs [f] k = [f] := by
  simp [contribs, h]

theorem contribs_single_neg {f : FieldDef} {k : String} (h : normKey f ≠ k) :
    contribs [f] k = [] := by
  simp [contribs, h]

theorem contribs_eq_nil_of_not_mem {x : List FieldDef} {k : String}
    (h : k ∉ x.map normKey) : contribs x k = [] := by
  rw [contribs, List.filter_eq_nil_iff]
  intro f hf
  intro hk
  exact h (of_decide_eq_true hk ▸ List.mem_map_of_mem normKey hf)

/-! ### Projections of `cloneField` and `mergeField` -/

theorem cloneField_name (f : FieldDef) : (cloneField f).name = f.name := rfl

theorem cloneField_kind (f : FieldDef) : (cloneField f).kind = f.kind := rfl

theorem cloneField_required (f : FieldDef) : (cloneField f).required = f.required := rfl

theorem cloneField_occurrences (f : FieldDef) : (cloneField f).occurrences = f.occurrences := rfl

theorem cloneField_options (f : FieldDef) : (cloneField f).options = f.options.map jsSetDedup := rfl

theorem mergeField_name (e f : FieldDef) : (mergeField e f).name = e.name := by
  rw [mergeField]
  split <;> split <;> rfl

theorem mergeField_kind (e f : FieldDef) : (mergeField e f).kind = e.kind := by
  rw [mergeField]
  split <;> split <;> rfl

theorem mergeField_occurrences (e f : FieldDef) :
    (mergeField e f).occurrences = mergeOccurrences e.occurrences f.occurrences := by
  rw [mergeField]
  split <;> split <;> rfl

theorem mergeField_options (e f : FieldDef) :
    (mergeField e f).options =
      if e.options.isSome || f.options.isSome then
        some (jsSetDedup (e.options.getD [] ++ f.options.getD []))
      else e.options := by
  rw [mergeField]
  by_cases h1 : e.options.isSome || f.options.isSome <;>
    by_cases h2 : f.required.getD false <;>
      simp [h1, h2]

/-! ### `optionsUnion` lemmas -/

theorem optionsUnion_single (f : FieldDef) : optionsUnion [f] = f.options.map jsSetDedup := by
  cases ho : f.options with
  | none => simp [optionsUnion, ho]
  | some l => simp [optionsUnion, ho]

theorem flatten_getD_eq_nil {l : List FieldDef} (h : ∀ f ∈ l, f.options.isNone) :
    (l.map (fun f => f.options.getD [])).flatten = [] := by
  rw [List.flatten_eq_nil_iff]
  intro xs hxs
  rcases List.mem_map.mp hxs with ⟨f, hf, heq⟩
  have hnone := h f hf
  cases ho : f.options with
  | none =>
    rw [← heq, ho]
    rfl
  | some v =>
    rw [ho] at hnone
    simp at hnone

theorem optionsUnion_append_single (l : List FieldDef) (f : FieldDef) :
    optionsUnion (l ++ [f]) =
      if (optionsUnion l).isSome || f.options.isSome then
        some (jsSetDedup ((optionsUnion l).getD [] ++ f.options.getD []))
      else optionsUnion l := by
  by_cases hall : l.all (fun f => f.options.isNone)
  · have hflat : (l.map (fun f => f.options.getD [])).flatten = [] :=
      flatten_getD_eq_nil (fun g hg => List.all_eq_true.mp hall g hg)
    cases ho : f.options with
    | none =>
      have : (l ++ [f]).all (fun f => f.options.isNone) = true := by
        rw [List.all_append, hall]
        simp [ho]
      rw [optionsUnion, if_pos this, optionsUnion, if_pos hall]
      simp [optionsUnion, hall, ho]
    | some b =>
      have hnall : ¬ (l ++ [f]).all (fun f => f.options.isNone) = true := by
        rw [List.all_append]
        simp [ho]
      rw [optionsUnion, if_neg hnall]
      rw [show optionsUnion l = none from by rw [optionsUnion, if_pos hall]]
      simp [ho, hflat]
  · have hnall : ¬ (l ++ [f]).all (fun f => f.options.isNone) = true := by
      rw [List.all_append]
      simp [hall]
    have hl : optionsUnion l = some (jsSetDedup ((l.map (fun f => f.options.getD [])).flatten)) := by
      rw [optionsUnion, if_neg hall]
    rw [optionsUnion, if_neg hnall, hl]
    simp only [Option.isSome_some, Bool.true_or, if_true, Option.getD_some]
    rw [jsSetDedup_append_left]
    simp

/-! ### The `dedupeFields` loop invariant -/

theorem dedupeStep_of_none {m : List (String × FieldDef)} {f : FieldDef}
    (h : recordGet (normKey f) m = none) :
    dedupeStep m f = m ++ [(normKey f, cloneField f)] := by
  have h' : recordGet (normalizeName f.name) m = none := h
  simp only [dedupeStep]
  rw [h']
  rfl

theorem dedupeStep_of_some {m : List (String × FieldDef)} {f existing : FieldDef}
    (h : recordGet (normKey f) m = some existing) :
    dedupeStep m f = recordSet (normKey f) (mergeField existing f) m := by
  have h' : recordGet (normalizeName f.name) m = some existing := h
  simp only [dedupeStep]
  rw [h']
  rfl

theorem entryInv_insert {p : List FieldDef} {f : FieldDef} {k : String}
    (hk : normKey f = k) (hnil : contribs p k = []) :
    EntryInv (p ++ [f]) k (cloneField f) := by
  have hc : contribs (p ++ [f]) k = [f] := by
    rw [contribs_append, hnil, contribs_single_pos hk]
    rfl
  refine ⟨hk, ⟨f, [], hc, cloneField_name f, cloneField_kind f⟩, ?_, ?_⟩
  · rw [hc, optionsUnion_single, cloneField_options]
  · intro hwf
    constructor
    · intro l hl
      rw [cloneField_occurrences] at hl
      exact hwf f (by rw [hc]; exact List.mem_cons_self _ _) l hl
    · intro d
      rw [hc]
      show occAt (cloneField f) d = occAt f d + 0
      rw [show occAt (cloneField f) d = occAt f d from rfl]
      simp

theorem entryInv_merge {p : List FieldDef} {f e : FieldDef} {k : String}
    (hinv : EntryInv p k e) (hk : normKey f = k) :
    EntryInv (p ++ [f]) k (mergeField e f) := by
  obtain ⟨hek, ⟨c, cs, hc, hname, hkind⟩, hopt, hocc⟩ := hinv
  have happ : contribs (p ++ [f]) k = contribs p k ++ [f] := by
    rw [contribs_append, contribs_single_pos hk]
  refine ⟨?_, ?_, ?_, ?_⟩
  · rw [show normKey (mergeField e f) = normalizeName (mergeField e f).name from rfl,
      mergeField_name]
    exact hek
  · exact ⟨c, cs ++ [f], by rw [happ, hc]; rfl,
      by rw [mergeField_name]; exact hname, by rw [mergeField_kind]; exact hkind⟩
  · rw [mergeField_options, happ, optionsUnion_append_single, ← hopt]
  · intro hwf
    have hwfp : ∀ g ∈ contribs p k, OccWF g := by
      intro g hg
      exact hwf g (happ ▸ List.mem_append_left _ hg)
    have hwff : OccWF f := hwf f (happ ▸ List.mem_append_right _ (List.mem_cons_self _ _))
    obtain ⟨hewf, hesum⟩ := hocc hwfp
    constructor
    · intro l hl
      rw [mergeField_occurrences] at hl
      exact mergeOccurrences_nodup_fst _ _ l hl
    · intro d
      have hval : occAt (mergeField e f) d = occAt e d + occAt f d := by
        rw [show occAt (mergeField e f) d = occAtO (mergeField e f).occurrences d from rfl,
          mergeField_occurrences]
        exact mergeOccurrences_occAtO _ _ hewf hwff d
      rw [hval, hesum d, happ, List.map_append, List.sum_append]
      simp

theorem entryInv_skip {p : List FieldDef} {f e : FieldDef} {k : String}
    (hinv : EntryInv p k e) (hk : normKey f ≠ k) :
    EntryInv (p ++ [f]) k e := by
  have happ : contribs (p ++ [f]) k = contribs p k := by
    rw [contribs_append, contribs_single_neg hk, List.append_nil]
  obtain ⟨hek, hfirst, hopt, hocc⟩ := hinv
  exact ⟨hek, happ ▸ hfirst, happ ▸ hopt, happ ▸ hocc⟩

/-- The `dedupeFields` loop establishes `MapInv` over any processed prefix. -/
theorem dedupe_fold_inv (p : List FieldDef) : MapInv p (p.foldl dedupeStep []) := by
  induction p using List.reverseRecOn with
  | nil =>
    refine ⟨rfl, ?_⟩
    intro q hq
    simp at hq
  | append_singleton p f ih =>
    rw [List.foldl_append, List.foldl_cons, List.foldl_nil]
    obtain ⟨hkeys, hent⟩ := ih
    cases hg : recordGet (normKey f) (p.foldl dedupeStep []) with
    | none =>
      rw [dedupeStep_of_none hg]
      have hnotmem : normKey f ∉ (p.foldl dedupeStep []).map Prod.fst :=
        (recordGet_eq_none_iff _ _).mp hg
      have hnotin : normKey f ∉ p.map normKey := by
        intro hmem
        rw [hkeys] at hnotmem
        exact hnotmem (mem_jsSetDedup.mpr hmem)
      constructor
      · rw [List.map_append, hkeys, List.map_append]
        show jsSetDedup (p.map normKey) ++ [normKey f] =
          (p.map normKey ++ [normKey f]).foldl addIfNew []
        rw [List.foldl_append]
        show _ = addIfNew (jsSetDedup (p.map normKey)) (normKey f)
        rw [addIfNew, if_neg (fun hmem => hnotin (mem_jsSetDedup.mp hmem))]
      · intro q hq
        rcases List.mem_append.mp hq with hq | hq
        · have := hent q hq
          refine entryInv_skip this ?_
          intro hkq
          exact hnotmem (hkq ▸ List.mem_map_of_mem Prod.fst hq)
        · rw [List.mem_singleton] at hq
          subst hq
          exact entryInv_insert rfl (contribs_eq_nil_of_not_mem hnotin)
    | some existing =>
      rw [dedupeStep_of_some hg]
      have hmem : normKey f ∈ (p.foldl dedupeStep []).map Prod.fst := by
        rw [← recordGet_isSome_iff, hg]
        rfl
      have hin : normKey f ∈ p.map normKey := by
        rw [hkeys] at hmem
        exact mem_jsSetDedup.mp hmem
      have hnd : ((p.foldl dedupeStep []).map Prod.fst).Nodup := by
        rw [hkeys]
        exact jsSetDedup_nodup _
      constructor
      · rw [recordSet_map_fst_of_mem _ hmem, hkeys, List.map_append]
        show jsSetDedup (p.map normKey) =
          (p.map normKey ++ [normKey f]).foldl addIfNew []
        rw [List.foldl_append]
        show _ = addIfNew (jsSetDedup (p.map normKey)) (normKey f)
        rw [addIfNew, if_pos (mem_jsSetDedup.mpr hin)]
      · intro q hq
        rcases mem_recordSet_nodup hnd hq with hq | ⟨hq, hqk⟩
        · subst hq
          exact entryInv_merge (hent _ (recordGet_mem hg)) rfl
        · exact entryInv_skip (hent q hq) (fun hkq => hqk (by rw [← hkq]))

/-! ### Consequences of the loop invariant -/

theorem dedupe_map_fst (x : List FieldDef) :
    (x.foldl dedupeStep []).map Prod.fst = jsSetDedup (x.map normKey) :=
  (dedupe_fold_inv x).1

theorem mem_dedupeFields_iff {x : List FieldDef} {e : FieldDef} :
    e ∈ dedupeFields x ↔ ∃ k, (k, e) ∈ x.foldl dedupeStep [] := by
  rw [dedupeFields]
  constructor
  · intro h
    rcases List.mem_map.mp h with ⟨⟨k, e'⟩, hmem, heq⟩
    exact ⟨k, by rwa [show e' = e from heq] at hmem⟩
  · rintro ⟨k, hk⟩
    exact List.mem_map_of_mem Prod.snd hk

theorem dedupeFields_map_normKey (x : List FieldDef) :
    (dedupeFields x).map normKey = jsSetDedup (x.map normKey) := by
  rw [dedupeFields, List.map_map]
  have hcongr : ∀ q ∈ x.foldl dedupeStep [], (normKey ∘ Prod.snd) q = Prod.fst q :=
    fun q hq => ((dedupe_fold_inv x).2 q hq).1
  rw [List.map_congr_left hcongr]
  exact (dedupe_fold_inv x).1

theorem dedupeFields_normKey_nodup (x : List FieldDef) :
    ((dedupeFields x).map normKey).Nodup := by
  rw [dedupeFields_map_normKey]
  exact jsSetDedup_nodup _

theorem dedupeFields_entry {x : List FieldDef} {e : FieldDef} (h : e ∈ dedupeFields x) :
    EntryInv x (normKey e) e := by
  rcases mem_dedupeFields_iff.mp h with ⟨k, hk⟩
  have hinv := (dedupe_fold_inv x).2 _ hk
  have hkeq : normKey e = k := hinv.1
  rwa [hkeq]

theorem recordGet_append_none {β : Type} {k : String} {m : List (String × β)}
    (h : recordGet k m = none) (m' : List (String × β)) :
    recordGet k (m ++ m') = recordGet k m' := by
  induction m with
  | nil => rfl
  | cons q rest ih =>
    obtain ⟨k', v⟩ := q
    by_cases hk : k' = k
    · rw [recordGet, if_pos hk] at h
      exact absurd h (by simp)
    · rw [recordGet, if_neg hk] at h
      rw [List.cons_append, recordGet, if_neg hk]
      exact ih h

/-- Running `dedupeFields`'s loop over descriptors whose merge keys are fresh
and pairwise distinct just appends their clones. -/
theorem dedupe_run_fresh (l : List FieldDef) :
    ∀ m : List (String × FieldDef), (∀ f ∈ l, recordGet (normKey f) m = none) →
      (l.map normKey).Nodup →
      l.foldl dedupeStep m = m ++ l.map (fun f => (normKey f, cloneField f)) := by
  induction l with
  | nil => simp
  | cons f l ih =>
    intro m hfresh hnd
    rw [List.map_cons, List.nodup_cons] at hnd
    rw [List.foldl_cons, dedupeStep_of_none (hfresh f (List.mem_cons_self _ _))]
    rw [ih (m ++ [(normKey f, cloneField f)]) ?fresh hnd.2]
    · simp
    case fresh =>
      intro g hg
      rw [recordGet_append_none (hfresh g (List.mem_cons_of_mem _ hg))]
      have hne : normKey f ≠ normKey g := by
        intro hh
        exact hnd.1 (hh ▸ List.mem_map_of_mem normKey hg)
      rw [recordGet, if_neg hne]
      rfl

theorem optionsUnion_some_fixed {l : List FieldDef} {v : List String}
    (h : optionsUnion l = some v) : jsSetDedup v = v := by
  rw [optionsUnion] at h
  by_cases hall : l.all (fun f => f.options.isNone)
  · rw [if_pos hall] at h
    exact absurd h (by simp)
  · rw [if_neg hall] at h
    injection h with h
    rw [← h]
    exact jsSetDedup_idem _

theorem cloneField_of_deduped {x : List FieldDef} {e : FieldDef}
    (h : e ∈ dedupeFields x) : cloneField e = e := by
  have hopt := (dedupeFields_entry h).2.2.1
  have hfix : e.options.map jsSetDedup = e.options := by
    cases ho : e.options with
    | none => rfl
    | some v =>
      have hv : optionsUnion (contribs x (normKey e)) = some v := by rw [← hopt, ho]
      show some (jsSetDedup v) = some v
      rw [optionsUnion_some_fixed hv]
  obtain ⟨n, k, r, o, oc⟩ := e
  show FieldDef.mk n k r (o.map jsSetDedup) oc = FieldDef.mk n k r o oc
  rw [show o.map jsSetDedup = o from hfix]

/-! ### Claims about `dedupeFields` -/

/-- C1: for every input list of field descriptors, the output of
`dedupeFields` contains no two entries whose trimmed, lowercased names are
equal, and the entries appear in the order in which their normalized names
first occur in the input (first-seen order preserved). -/
theorem dedupeFields_nodup_first_seen (x : List FieldDef) :
    ((dedupeFields x).map normKey).Nodup ∧
      (dedupeFields x).map normKey = jsSetDedup (x.map normKey) :=
  ⟨dedupeFields_normKey_nodup x, dedupeFields_map_normKey x⟩

/-- C9: `dedupeFields` is idempotent — reapplying it to its own output
returns the output unchanged. -/
theorem dedupeFields_idempotent (x : List FieldDef) :
    dedupeFields (dedupeFields x) = dedupeFields x := by
  rw [show dedupeFields (dedupeFields x) =
        ((dedupeFields x).foldl dedupeStep []).map Prod.snd from rfl]
  rw [dedupe_run_fresh (dedupeFields x) [] (fun f _ => rfl) (dedupeFields_normKey_nodup x)]
  rw [List.nil_append, List.map_map]
  have hcongr : ∀ e ∈ dedupeFields x,
      (Prod.snd ∘ fun f => (normKey f, cloneField f)) e = id e :=
    fun e he => cloneField_of_deduped he
  rw [List.map_congr_left hcongr, List.map_id]

/-- C3: every entry of `dedupeFields x` assigns to each document id the sum
of that document's counts over all contributing duplicate descriptors,
reading an absent count as 0.  The hypothesis states that each input
occurrences mapping has distinct keys, as any JS `Record` does. -/
theorem dedupeFields_occurrences_sum (x : List FieldDef) (e : FieldDef) (d : String)
    (hwf : ∀ f ∈ x, OccWF f) (he : e ∈ dedupeFields x) :
    occAt e d = ((contribs x (normKey e)).map (fun f => occAt f d)).sum :=
  ((dedupeFields_entry he).2.2.2 (fun g hg => hwf g (mem_contribs hg).1)).2 d

/-- Witness for C3, on the spec's example: `{a.pdf:1}` merged with
`{a.pdf:2, b.pdf:1}` gives `{a.pdf:3, b.pdf:1}`. -/
theorem dedupeFields_occurrences_sum_witness :
    (∀ f ∈ [ FieldDef.mk "Name" FieldKind.text none none (some [("a.pdf", 1)]),
             FieldDef.mk "name" FieldKind.text none none
               (some [("a.pdf", 2), ("b.pdf", 1)]) ], OccWF f) ∧
    FieldDef.mk "Name" FieldKind.text none none (some [("a.pdf", 3), ("b.pdf", 1)]) ∈
      dedupeFields [ FieldDef.mk "Name" FieldKind.text none none (some [("a.pdf", 1)]),
                     FieldDef.mk "name" FieldKind.text none none
                       (some [("a.pdf", 2), ("b.pdf", 1)]) ] ∧
    occAt (FieldDef.mk "Name" FieldKind.text none none
        (some [("a.pdf", 3), ("b.pdf", 1)])) "a.pdf" =
      ((contribs [ FieldDef.mk "Name" FieldKind.text none none (some [("a.pdf", 1)]),
                   FieldDef.mk "name" FieldKind.text none none
                     (some [("a.pdf", 2), ("b.pdf", 1)]) ]
          (normKey (FieldDef.mk "Name" FieldKind.text none none
            (some [("a.pdf", 3), ("b.pdf", 1)])))).map
        (fun f => occAt f "a.pdf")).sum := by
  have hwf : ∀ f ∈ [ FieldDef.mk "Name" FieldKind.text none none (some [("a.pdf", 1)]),
      FieldDef.mk "name" FieldKind.text none none (some [("a.pdf", 2), ("b.pdf", 1)]) ],
      OccWF f := by
    intro f hf
    fin_cases hf <;>
      · intro l hl
        injection hl with h
        subst h
        decide
  have hmem : FieldDef.mk "Name" FieldKind.text none none
      (some [("a.pdf", 3), ("b.pdf", 1)]) ∈
      dedupeFields [ FieldDef.mk "Name" FieldKind.text none none (some [("a.pdf", 1)]),
                     FieldDef.mk "name" FieldKind.text none none
                       (some [("a.pdf", 2), ("b.pdf", 1)]) ] := by decide
  exact ⟨hwf, hmem, dedupeFields_occurrences_sum _ _ "a.pdf" hwf hmem⟩

/-- C4: every entry of `dedupeFields x` carries as options the deduplicated
union of its contributors' option lists, in first-seen order (absent when no
contributor carries options). -/
theorem dedupeFields_options_union (x : List FieldDef) (e : FieldDef)
    (he : e ∈ dedupeFields x) :
    e.options = optionsUnion (contribs x (normKey e)) :=
  (dedupeFields_entry he).2.2.1

/-- Witness for C4, on the spec's example: `["US","CA"]` merged with
`["CA","MX"]` yields `["US","CA","MX"]`. -/
theorem dedupeFields_options_union_witness :
    FieldDef.mk "Country" FieldKind.text none (some ["US", "CA", "MX"]) none ∈
      dedupeFields [ FieldDef.mk "Country" FieldKind.text none (some ["US", "CA"]) none,
                     FieldDef.mk "country" FieldKind.text none (some ["CA", "MX"]) none ] ∧
    (FieldDef.mk "Country" FieldKind.text none (some ["US", "CA", "MX"]) none).options =
      optionsUnion (contribs
        [ FieldDef.mk "Country" FieldKind.text none (some ["US", "CA"]) none,
          FieldDef.mk "country" FieldKind.text none (some ["CA", "MX"]) none ]
        (normKey (FieldDef.mk "Country" FieldKind.text none
          (some ["US", "CA", "MX"]) none))) := by
  have hmem : FieldDef.mk "Country" FieldKind.text none (some ["US", "CA", "MX"]) none ∈
      dedupeFields [ FieldDef.mk "Country" FieldKind.text none (some ["US", "CA"]) none,
                     FieldDef.mk "country" FieldKind.text none (some ["CA", "MX"]) none ] := by
    decide
  exact ⟨hmem, dedupeFields_options_union _ _ hmem⟩

/-- C5: `dedupeFields` matches names case-insensitively after trimming —
all descriptors sharing a normalized name merge into exactly one output
entry — and that entry's exact name casing and kind come from the first
such descriptor in the input. -/
theorem dedupeFields_first_seen_name_kind (x : List FieldDef) (f c : FieldDef)
    (cs : List FieldDef) (hf : f ∈ x) (hc : contribs x (normKey f) = c :: cs) :
    ∃ e, e ∈ dedupeFields x ∧ normKey e = normKey f ∧ e.name = c.name ∧ e.kind = c.kind ∧
      ∀ e' ∈ dedupeFields x, normKey e' = normKey f → e' = e := by
  have hkmem : normKey f ∈ (x.foldl dedupeStep []).map Prod.fst := by
    rw [dedupe_map_fst]
    exact mem_jsSetDedup.mpr (List.mem_map_of_mem normKey hf)
  cases hr : recordGet (normKey f) (x.foldl dedupeStep []) with
  | none => exact absurd hkmem ((recordGet_eq_none_iff _ _).mp hr)
  | some e =>
    have hmem : (normKey f, e) ∈ x.foldl dedupeStep [] := recordGet_mem hr
    have hinv := (dedupe_fold_inv x).2 _ hmem
    obtain ⟨hek, ⟨c', cs', hc', hname, hkind⟩, -, -⟩ := hinv
    rw [hc] at hc'
    injection hc' with h1 h2
    refine ⟨e, mem_dedupeFields_iff.mpr ⟨_, hmem⟩, hek, ?_, ?_, ?_⟩
    · rw [hname, ← h1]
    · rw [hkind, ← h1]
    · intro e' he' hke'
      rcases mem_dedupeFields_iff.mp he' with ⟨k', hk'⟩
      have hinv' := (dedupe_fold_inv x).2 _ hk'
      have hh : normKey e' = k' := hinv'.1
      have hkk : k' = normKey f := by rw [← hh, hke']
      subst hkk
      exact nodup_fst_mem_unique
        (by rw [dedupe_map_fst]; exact jsSetDedup_nodup _) hk' hmem

/-- Witness for C5: `"Name"` and `" name "` differ only in case and
whitespace; they merge into one entry that keeps the first-seen name `"Name"`
and kind `text` despite the later duplicate's differing kind. -/
theorem dedupeFields_first_seen_name_kind_witness :
    FieldDef.mk " name " FieldKind.number none none none ∈
      [ FieldDef.mk "Name" FieldKind.text none none none,
        FieldDef.mk " name " FieldKind.number none none none ] ∧
    contribs [ FieldDef.mk "Name" FieldKind.text none none none,
               FieldDef.mk " name " FieldKind.number none none none ]
        (normKey (FieldDef.mk " name " FieldKind.number none none none)) =
      FieldDef.mk "Name" FieldKind.text none none none ::
        [FieldDef.mk " name " FieldKind.number none none none] ∧
    (∃ e, e ∈ dedupeFields [ FieldDef.mk "Name" FieldKind.text none none none,
                             FieldDef.mk " name " FieldKind.number none none none ] ∧
      normKey e = normKey (FieldDef.mk " name " FieldKind.number none none none) ∧
      e.name = (FieldDef.mk "Name" FieldKind.text none none none).name ∧
      e.kind = (FieldDef.mk "Name" FieldKind.text none none none).kind ∧
      ∀ e' ∈ dedupeFields [ FieldDef.mk "Name" FieldKind.text none none none,
                            FieldDef.mk " name " FieldKind.number none none none ],
        normKey e' = normKey (FieldDef.mk " name " FieldKind.number none none none) →
          e' = e) := by
  have hf : FieldDef.mk " name " FieldKind.number none none none ∈
      [ FieldDef.mk "Name" FieldKind.text none none none,
        FieldDef.mk " name " FieldKind.number none none none ] := by decide
  have hc : contribs [ FieldDef.mk "Name" FieldKind.text none none none,
      FieldDef.mk " name " FieldKind.number none none none ]
      (normKey (FieldDef.mk " name " FieldKind.number none none none)) =
      FieldDef.mk "Name" FieldKind.text none none none ::
        [FieldDef.mk " name " FieldKind.number none none none] := by decide
  exact ⟨hf, hc, dedupeFields_first_seen_name_kind _ _ _ _ hf hc⟩

/-! ### The selection signature is a sort: order properties of `charListLe` -/

theorem charListLe_total : ∀ a b : List Char, charListLe a b = true ∨ charListLe b a = true
  | [], _ => Or.inl rfl
  | _ :: _, [] => Or.inr rfl
  | a :: as, b :: bs => by
    rcases lt_trichotomy a b with h | h | h
    · exact Or.inl (by simp only [charListLe]; rw [if_pos h])
    · subst h
      rcases charListLe_total as bs with ih | ih
      · refine Or.inl ?_
        simp only [charListLe]
        rw [if_neg (lt_irrefl a), if_neg (lt_irrefl a)]
        exact ih
      · refine Or.inr ?_
        simp only [charListLe]
        rw [if_neg (lt_irrefl a), if_neg (lt_irrefl a)]
        exact ih
    · exact Or.inr (by simp only [charListLe]; rw [if_pos h])

theorem charListLe_trans : ∀ a b c : List Char,
    charListLe a b = true → charListLe b c = true → charListLe a c = true
  | [], _, _ => fun _ _ => rfl
  | _ :: _, [], _ => fun h1 _ => by
    simp only [charListLe] at h1
    exact Bool.noConfusion h1
  | _ :: _, _ :: _, [] => fun _ h2 => by
    simp only [charListLe] at h2
    exact Bool.noConfusion h2
  | a :: as, b :: bs, c :: cs => fun h1 h2 => by
    simp only [charListLe] at h1 h2 ⊢
    rcases lt_trichotomy a b with hab | hab | hab
    · rcases lt_trichotomy b c with hbc | hbc | hbc
      · rw [if_pos (lt_trans hab hbc)]
      · subst hbc
        rw [if_pos hab]
      · rw [if_neg (lt_asymm hbc), if_pos hbc] at h2
        exact absurd h2 (by simp)
    · subst hab
      rw [if_neg (lt_irrefl a), if_neg (lt_irrefl a)] at h1
      rcases lt_trichotomy a c with hac | hac | hac
      · rw [if_pos hac]
      · subst hac
        rw [if_neg (lt_irrefl a), if_neg (lt_irrefl a)] at h2 ⊢
        exact charListLe_trans as bs cs h1 h2
      · rw [if_neg (lt_asymm hac), if_pos hac] at h2
        exact absurd h2 (by simp)
    · rw [if_neg (lt_asymm hab), if_pos hab] at h1
      exact absurd h1 (by simp)

theorem charListLe_antisymm : ∀ a b : List Char,
    charListLe a b = true → charListLe b a = true → a = b
  | [], [] => fun _ _ => rfl
  | [], _ :: _ => fun _ h2 => by
    simp only [charListLe] at h2
    exact Bool.noConfusion h2
  | _ :: _, [] => fun h1 _ => by
    simp only [charListLe] at h1
    exact Bool.noConfusion h1
  | a :: as, b :: bs => fun h1 h2 => by
    simp only [charListLe] at h1 h2
    rcases lt_trichotomy a b with hab | hab | hab
    · rw [if_neg (lt_asymm hab), if_pos hab] at h2
      exact absurd h2 (by simp)
    · subst hab
      rw [if_neg (lt_irrefl a), if_neg (lt_irrefl a)] at h1 h2
      rw [charListLe_antisymm as bs h1 h2]
    · rw [if_neg (lt_asymm hab), if_pos hab] at h1
      exact absurd h1 (by simp)

instance : IsTotal String sigLe :=
  ⟨fun a b => charListLe_total a.data b.data⟩

instance : IsTrans String sigLe :=
  ⟨fun a b c => charListLe_trans a.data b.data c.data⟩

instance : IsAntisymm String sigLe :=
  ⟨fun a b h1 h2 => by
    have hd := charListLe_antisymm a.data b.data h1 h2
    obtain ⟨da⟩ := a
    obtain ⟨db⟩ := b
    exact congrArg String.mk hd⟩

theorem insertionSort_sigLe_perm_eq {l1 l2 : List String} (h : l1.Perm l2) :
    List.insertionSort sigLe l1 = List.insertionSort sigLe l2 :=
  List.eq_of_perm_of_sorted
    ((List.perm_insertionSort sigLe l1).trans (h.trans (List.perm_insertionSort sigLe l2).symm))
    (List.sorted_insertionSort sigLe l1) (List.sorted_insertionSort sigLe l2)

/-! ### Claims about `selectionSignature` -/

/-- Amended C6: `selectionSignature` is invariant under reordering — any two
lists that are permutations of one another (same multiset of identifiers)
receive equal signatures.  Duplicated entries do change the signature, since
the sort-then-join keeps every copy (see the counterexample). -/
theorem selectionSignature_perm (l1 l2 : List String) (h : l1.Perm l2) :
    selectionSignature l1 = selectionSignature l2 := by
  rw [selectionSignature, selectionSignature, insertionSort_sigLe_perm_eq h]

/-- Witness for the amended C6: `signature(["b","a"]) == signature(["a","b"])`. -/
theorem selectionSignature_perm_witness :
    selectionSignature ["b", "a"] = selectionSignature ["a", "b"] :=
  selectionSignature_perm ["b", "a"] ["a", "b"] (List.Perm.swap "a" "b" [])

/-- Counterexample to C6 as stated: `["a","a"]` and `["a"]` contain the same
set of identifiers, yet their signatures differ (`"a||a"` vs `"a"`) —
repeating an id in the selected list does change the signature. -/
theorem selectionSignature_duplicates_counterexample :
    (["a", "a"] : List String).toFinset = (["a"] : List String).toFinset ∧
      selectionSignature ["a", "a"] ≠ selectionSignature ["a"] := by
  constructor
  · decide
  · decide

/-! ### Case analysis of one `fetchCombinedFields` run -/

theorem fetchStep_cache_hit {s : StoreState} {v : List FieldDef}
    (resp : Except ServiceError CombinedFieldsResponse)
    (h : recordGet (selectionSignature s.selectedPdfs) s.fieldsCache = some v) :
    fetchCombinedFieldsStep s resp =
      { state := { s with combinedFields := v }, calls := [], err := none } := by
  simp only [fetchCombinedFieldsStep]
  rw [h]

theorem fetchStep_empty {s : StoreState}
    (resp : Except ServiceError CombinedFieldsResponse)
    (hc : recordGet (selectionSignature s.selectedPdfs) s.fieldsCache = none)
    (he : s.selectedPdfs = []) :
    fetchCombinedFieldsStep s resp =
      { state := { s with combinedFields := [] }, calls := [], err := none } := by
  simp only [fetchCombinedFieldsStep]
  rw [hc, he]
  rfl

theorem fetchStep_fetch_ok {s : StoreState} {r : CombinedFieldsResponse}
    (hc : recordGet (selectionSignature s.selectedPdfs) s.fieldsCache = none)
    (hne : s.selectedPdfs ≠ []) :
    fetchCombinedFieldsStep s (Except.ok r) =
      { state := { s with
            combinedFields := dedupeFields r.fields
            fieldsCache := recordSet (selectionSignature s.selectedPdfs)
              (dedupeFields r.fields) s.fieldsCache
            isLoadingFields := false }
        calls := [s.selectedPdfs]
        err := none } := by
  simp only [fetchCombinedFieldsStep]
  rw [hc, if_neg (fun h => hne (List.length_eq_zero.mp h))]

theorem fetchStep_fetch_err {s : StoreState} {e : ServiceError}
    (hc : recordGet (selectionSignature s.selectedPdfs) s.fieldsCache = none)
    (hne : s.selectedPdfs ≠ []) :
    fetchCombinedFieldsStep s (Except.error e) =
      { state := { s with isLoadingFields := false }
        calls := [s.selectedPdfs]
        err := some e } := by
  simp only [fetchCombinedFieldsStep]
  rw [hc, if_neg (fun h => hne (List.length_eq_zero.mp h))]

/-! ### Claims about the store's operations -/

/-- Amended C7: in every store state, `setSelectedPdfs([])` completes without
error, never invokes the external service and never writes the cache; it sets
`combinedFields` to the value cached under the empty signature when one is
present (possible only after a previous fetch for a selection of empty-string
ids, whose signature is also the empty string), and to the empty list
otherwise.  The claim's unconditional `combinedFields = []` fails on the
cache-collision state (see the counterexample). -/
theorem setSelectedPdfs_empty (s : StoreState)
    (resp : Except ServiceError CombinedFieldsResponse) :
    (runStep s (Action.setSelectedPdfs [] resp)).calls = [] ∧
    (runStep s (Action.setSelectedPdfs [] resp)).err = none ∧
    (runStep s (Action.setSelectedPdfs [] resp)).state.fieldsCache = s.fieldsCache ∧
    (runStep s (Action.setSelectedPdfs [] resp)).state.combinedFields =
      (recordGet "" s.fieldsCache).getD [] := by
  have hrun : runStep s (Action.setSelectedPdfs [] resp) =
      fetchCombinedFieldsStep { s with selectedPdfs := [] } resp := rfl
  have hsig : selectionSignature (({ s with selectedPdfs := [] } : StoreState).selectedPdfs) =
      "" := rfl
  cases hr : recordGet "" s.fieldsCache with
  | some v =>
    have hv : recordGet
        (selectionSignature (({ s with selectedPdfs := [] } : StoreState).selectedPdfs))
        (({ s with selectedPdfs := [] } : StoreState).fieldsCache) = some v := hr
    rw [hrun, fetchStep_cache_hit resp hv]
    exact ⟨rfl, rfl, rfl, rfl⟩
  | none =>
    have hv : recordGet
        (selectionSignature (({ s with selectedPdfs := [] } : StoreState).selectedPdfs))
        (({ s with selectedPdfs := [] } : StoreState).fieldsCache) = none := hr
    rw [hrun, fetchStep_empty resp hv rfl]
    exact ⟨rfl, rfl, rfl, rfl⟩

/-- Counterexample to C7 as stated: after fetching the selection `[""]`
(signature `""`), the cache holds an entry under the empty signature, and a
subsequent `setSelectedPdfs([])` serves that entry from the cache instead of
the empty list. -/
theorem setSelectedPdfs_empty_counterexample :
    (runTrace initialState
      [ Action.setSelectedPdfs [""]
          (Except.ok (CombinedFieldsResponse.mk
            [FieldDef.mk "x" FieldKind.text none none none] none)),
        Action.setSelectedPdfs []
          (Except.error (ServiceError.mk "unused" 0 "")) ]).1.combinedFields ≠ [] := by
  decide

/-- C8: when the external call fails during `fetchCombinedFields` (cache miss
on a non-empty selection), the error propagates unchanged, the loading flag
ends up false, the service was invoked exactly once (no retry), and the rest
of the state — in particular `combinedFields` and `fieldsCache` — is exactly
as before the call. -/
theorem fetchCombinedFields_error (s : StoreState) (e : ServiceError)
    (hc : recordGet (selectionSignature s.selectedPdfs) s.fieldsCache = none)
    (hne : s.selectedPdfs ≠ []) :
    runStep s (Action.fetchCombinedFields (Except.error e)) =
      { state := { s with isLoadingFields := false }
        calls := [s.selectedPdfs]
        err := some e } :=
  fetchStep_fetch_err hc hne

/-- Witness for C8 at a concrete state with selection `["a"]` and an empty
cache. -/
theorem fetchCombinedFields_error_witness :
    recordGet
        (selectionSignature ({ initialState with selectedPdfs := ["a"] } : StoreState).selectedPdfs)
        ({ initialState with selectedPdfs := ["a"] } : StoreState).fieldsCache = none ∧
    ({ initialState with selectedPdfs := ["a"] } : StoreState).selectedPdfs ≠ [] ∧
    runStep { initialState with selectedPdfs := ["a"] }
        (Action.fetchCombinedFields
          (Except.error (ServiceError.mk "boom" 500 "/api/combined_fields"))) =
      { state := { ({ initialState with selectedPdfs := ["a"] } : StoreState) with
            isLoadingFields := false }
        calls := [({ initialState with selectedPdfs := ["a"] } : StoreState).selectedPdfs]
        err := some (ServiceError.mk "boom" 500 "/api/combined_fields") } := by
  refine ⟨by decide, by decide, ?_⟩
  exact fetchCombinedFields_error { initialState with selectedPdfs := ["a"] }
    (ServiceError.mk "boom" 500 "/api/combined_fields") (by decide) (by decide)

/-! ### The reachable-state invariant -/

theorem dedupedList_nil : DedupedList [] :=
  ⟨by simp, [], rfl⟩

theorem dedupedList_dedupe (y : List FieldDef) : DedupedList (dedupeFields y) :=
  ⟨dedupeFields_normKey_nodup y, y, rfl⟩

theorem storeInv_initial : StoreInv initialState :=
  ⟨dedupedList_nil, fun kv hkv => by simp [initialState] at hkv⟩

theorem storeInv_fetchStep (s : StoreState)
    (resp : Except ServiceError CombinedFieldsResponse) (h : StoreInv s) :
    StoreInv (fetchCombinedFieldsStep s resp).state := by
  cases hr : recordGet (selectionSignature s.selectedPdfs) s.fieldsCache with
  | some v =>
    rw [fetchStep_cache_hit resp hr]
    exact ⟨h.2 _ (recordGet_mem hr), h.2⟩
  | none =>
    by_cases he : s.selectedPdfs = []
    · rw [fetchStep_empty resp hr he]
      exact ⟨dedupedList_nil, h.2⟩
    · cases resp with
      | error e =>
        rw [fetchStep_fetch_err hr he]
        exact ⟨h.1, h.2⟩
      | ok r =>
        rw [fetchStep_fetch_ok hr he]
        refine ⟨dedupedList_dedupe r.fields, ?_⟩
        intro kv hkv
        rcases mem_recordSet_weak hkv with hkv | hkv
        · rw [hkv]
          exact dedupedList_dedupe r.fields
        · exact h.2 _ hkv

theorem storeInv_step (s : StoreState) (a : Action) (h : StoreInv s) :
    StoreInv (runStep s a).state := by
  cases a with
  | loadPdfs resp => cases resp <;> exact ⟨h.1, h.2⟩
  | loadSchema resp => cases resp <;> exact ⟨h.1, h.2⟩
  | updateFieldValue n v => exact ⟨h.1, h.2⟩
  | reset => exact storeInv_initial
  | setSelectedPdfs pdfs resp =>
    exact storeInv_fetchStep { s with selectedPdfs := pdfs } resp ⟨h.1, h.2⟩
  | fetchCombinedFields resp => exact storeInv_fetchStep s resp h

theorem storeInv_trace (acts : List Action) :
    ∀ s : StoreState, StoreInv s → StoreInv (runTrace s acts).1 := by
  induction acts with
  | nil => exact fun s hs => hs
  | cons a rest ih => exact fun s hs => ih _ (storeInv_step s a hs)

/-- C10: in every store state reachable from the initial state by sequential
actions, with arbitrary service responses, `combinedFields` and every value
stored in `fieldsCache` are lists with pairwise-distinct trimmed, lowercased
names, each of which is an output of `dedupeFields` (the empty list being
`dedupeFields []`). -/
theorem store_reachable_deduped (acts : List Action) :
    DedupedList (runTrace initialState acts).1.combinedFields ∧
      ∀ kv ∈ (runTrace initialState acts).1.fieldsCache, DedupedList kv.2 :=
  storeInv_trace acts initialState storeInv_initial

/-! ### The per-signature fetch-count bound -/

theorem fetchStep_cache_persist {s : StoreState}
    (resp : Except ServiceError CombinedFieldsResponse) {sig : String} {v : List FieldDef}
    (hcache : recordGet sig s.fieldsCache = some v) :
    recordGet sig (fetchCombinedFieldsStep s resp).state.fieldsCache = some v := by
  cases hr : recordGet (selectionSignature s.selectedPdfs) s.fieldsCache with
  | some w =>
    rw [fetchStep_cache_hit resp hr]
    exact hcache
  | none =>
    by_cases he : s.selectedPdfs = []
    · rw [fetchStep_empty resp hr he]
      exact hcache
    · cases resp with
      | error e =>
        rw [fetchStep_fetch_err hr he]
        exact hcache
      | ok r =>
        rw [fetchStep_fetch_ok hr he]
        have hne : sig ≠ selectionSignature s.selectedPdfs := by
          intro hh
          rw [hh, hr] at hcache
          exact Option.noConfusion hcache
        show recordGet sig (recordSet (selectionSignature s.selectedPdfs)
          (dedupeFields r.fields) s.fieldsCache) = some v
        rw [recordGet_recordSet_ne _ _ hne]
        exact hcache

theorem fetchStep_ok_count (sig : String) (s : StoreState) (r : CombinedFieldsResponse)
    (rest : List Action) (hrest : ∀ a ∈ rest, okFetchAction a)
    (ih : ∀ s2 : StoreState, (∀ a ∈ rest, okFetchAction a) →
      ((runTrace s2 rest).2.countP (fun c => selectionSignature c = sig)) ≤
        (if (recordGet sig s2.fieldsCache).isSome then 0 else 1)) :
    (((fetchCombinedFieldsStep s (Except.ok r)).calls ++
        (runTrace (fetchCombinedFieldsStep s (Except.ok r)).state rest).2).countP
      (fun c => selectionSignature c = sig)) ≤
      (if (recordGet sig s.fieldsCache).isSome then 0 else 1) := by
  rw [List.countP_append]
  cases hr : recordGet (selectionSignature s.selectedPdfs) s.fieldsCache with
  | some v =>
    rw [fetchStep_cache_hit (Except.ok r) hr]
    simp only [List.countP_nil, Nat.zero_add]
    exact ih _ hrest
  | none =>
    by_cases he : s.selectedPdfs = []
    · rw [fetchStep_empty (Except.ok r) hr he]
      simp only [List.countP_nil, Nat.zero_add]
      exact ih _ hrest
    · have hstep := fetchStep_fetch_ok (r := r) hr he
      have hcalls : (fetchCombinedFieldsStep s (Except.ok r)).calls = [s.selectedPdfs] := by
        rw [hstep]
      have hcache2 : (fetchCombinedFieldsStep s (Except.ok r)).state.fieldsCache =
          recordSet (selectionSignature s.selectedPdfs) (dedupeFields r.fields) s.fieldsCache := by
        rw [hstep]
      have hrest_le := ih (fetchCombinedFieldsStep s (Except.ok r)).state hrest
      rw [hcache2] at hrest_le
      rw [hcalls]
      by_cases hs : selectionSignature s.selectedPdfs = sig
      · have hbound : (if (recordGet sig s.fieldsCache).isSome then 0 else 1) = 1 := by
          rw [← hs, hr]
          rfl
        rw [hbound]
        have hcall1 : (List.countP (fun c => decide (selectionSignature c = sig))
            [s.selectedPdfs]) = 1 := by
          simp [hs]
        rw [hcall1]
        have hnew : recordGet sig (recordSet (selectionSignature s.selectedPdfs)
            (dedupeFields r.fields) s.fieldsCache) = some (dedupeFields r.fields) := by
          rw [hs]
          exact recordGet_recordSet_self _ _ _
        rw [hnew] at hrest_le
        have hrest0 : (List.countP (fun c => decide (selectionSignature c = sig))
            (runTrace (fetchCombinedFieldsStep s (Except.ok r)).state rest).2) ≤ 0 :=
          le_trans hrest_le (le_of_eq (by rfl))
        omega
      · have hcall0 : (List.countP (fun c => decide (selectionSignature c = sig))
            [s.selectedPdfs]) = 0 := by
          simp [hs]
        rw [hcall0]
        have hpersist : recordGet sig (recordSet (selectionSignature s.selectedPdfs)
            (dedupeFields r.fields) s.fieldsCache) = recordGet sig s.fieldsCache :=
          recordGet_recordSet_ne _ _ (fun hh => hs hh.symm)
        rw [hpersist] at hrest_le
        omega

theorem trace_count_le (sig : String) : ∀ (acts : List Action) (s : StoreState),
    (∀ a ∈ acts, okFetchAction a) →
    ((runTrace s acts).2.countP (fun c => selectionSignature c = sig)) ≤
      (if (recordGet sig s.fieldsCache).isSome then 0 else 1) := by
  intro acts
  induction acts with
  | nil =>
    intro s _
    simp [runTrace]
  | cons a rest ih =>
    intro s hok
    have hha := hok a (List.mem_cons_self _ _)
    have hrest : ∀ b ∈ rest, okFetchAction b := fun b hb => hok b (List.mem_cons_of_mem _ hb)
    cases a with
    | setSelectedPdfs pdfs resp =>
      cases resp with
      | ok r => exact fetchStep_ok_count sig { s with selectedPdfs := pdfs } r rest hrest ih
      | error e => exact hha.elim
    | fetchCombinedFields resp =>
      cases resp with
      | ok r => exact fetchStep_ok_count sig s r rest hrest ih
      | error e => exact hha.elim
    | loadPdfs resp => exact hha.elim
    | loadSchema resp => exact hha.elim
    | updateFieldValue n v => exact hha.elim
    | reset => exact hha.elim

/-- Amended C2: (i) starting from the initial (or any post-reset) store
state, across any sequence of sequential `setSelectedPdfs` /
`fetchCombinedFields` calls in which every service response succeeds, the
external `getCombinedFields` service is invoked at most once per selection
signature; (ii) in any state whose cache holds an entry for the signature of
a selection `p`, a `setSelectedPdfs` whose argument is any permutation of
`p` performs no service invocation and sets `combinedFields` from the cache,
leaving the cache unchanged; (iii) a `setSelectedPdfs` that does invoke the
service and succeeds caches the deduplicated result under the selection's
signature; (iv) cache entries persist across every action except `reset`.
A failed invocation does not populate the cache, so after a failure the same
signature may be fetched again (see the counterexample). -/
theorem selectionCache_at_most_once :
    (∀ acts : List Action, (∀ a ∈ acts, okFetchAction a) → ∀ sig : String,
        ((runTrace initialState acts).2.countP (fun c => selectionSignature c = sig)) ≤ 1) ∧
    (∀ (s : StoreState) (p q : List String) (v : List FieldDef)
        (resp : Except ServiceError CombinedFieldsResponse),
        recordGet (selectionSignature p) s.fieldsCache = some v → q.Perm p →
        (runStep s (Action.setSelectedPdfs q resp)).calls = [] ∧
        (runStep s (Action.setSelectedPdfs q resp)).state.combinedFields = v ∧
        (runStep s (Action.setSelectedPdfs q resp)).state.fieldsCache = s.fieldsCache) ∧
    (∀ (s : StoreState) (p : List String) (r : CombinedFieldsResponse),
        recordGet (selectionSignature p) s.fieldsCache = none → p ≠ [] →
        recordGet (selectionSignature p)
            (runStep s (Action.setSelectedPdfs p (Except.ok r))).state.fieldsCache =
          some (dedupeFields r.fields) ∧
        (runStep s (Action.setSelectedPdfs p (Except.ok r))).calls = [p]) ∧
    (∀ (s : StoreState) (sig : String) (v : List FieldDef) (a : Action),
        a ≠ Action.reset → recordGet sig s.fieldsCache = some v →
        recordGet sig (runStep s a).state.fieldsCache = some v) := by
  refine ⟨?_, ?_, ?_, ?_⟩
  · intro acts hok sig
    have h := trace_count_le sig acts initialState hok
    have hbound : (if (recordGet sig initialState.fieldsCache).isSome then 0 else 1) = 1 := rfl
    rw [hbound] at h
    exact h
  · intro s p q v resp hcache hperm
    have hsig : selectionSignature q = selectionSignature p :=
      selectionSignature_perm q p hperm
    have hq : recordGet
        (selectionSignature (({ s with selectedPdfs := q } : StoreState).selectedPdfs))
        (({ s with selectedPdfs := q } : StoreState).fieldsCache) = some v := by
      show recordGet (selectionSignature q) s.fieldsCache = some v
      rw [hsig]
      exact hcache
    have hstep := fetchStep_cache_hit resp hq
    refine ⟨?_, ?_, ?_⟩
    · show (fetchCombinedFieldsStep { s with selectedPdfs := q } resp).calls = []
      rw [hstep]
    · show (fetchCombinedFieldsStep { s with selectedPdfs := q } resp).state.combinedFields = v
      rw [hstep]
    · show (fetchCombinedFieldsStep { s with selectedPdfs := q } resp).state.fieldsCache =
        s.fieldsCache
      rw [hstep]
  · intro s p r hnone hne
    have hn : recordGet
        (selectionSignature (({ s with selectedPdfs := p } : StoreState).selectedPdfs))
        (({ s with selectedPdfs := p } : StoreState).fieldsCache) = none := hnone
    have hne' : ({ s with selectedPdfs := p } : StoreState).selectedPdfs ≠ [] := hne
    have hstep := fetchStep_fetch_ok (r := r) hn hne'
    constructor
    · show recordGet (selectionSignature p)
        (fetchCombinedFieldsStep { s with selectedPdfs := p } (Except.ok r)).state.fieldsCache =
          some (dedupeFields r.fields)
      rw [hstep]
      exact recordGet_recordSet_self _ _ _
    · show (fetchCombinedFieldsStep { s with selectedPdfs := p } (Except.ok r)).calls = [p]
      rw [hstep]
  · intro s sig v a hna hcache
    cases a with
    | reset => exact absurd rfl hna
    | loadPdfs resp => cases resp <;> exact hcache
    | loadSchema resp => cases resp <;> exact hcache
    | updateFieldValue n w => exact hcache
    | setSelectedPdfs pdfs resp =>
      have hc' : recordGet sig (({ s with selectedPdfs := pdfs } : StoreState)).fieldsCache =
          some v := hcache
      exact fetchStep_cache_persist resp hc'
    | fetchCombinedFields resp => exact fetchStep_cache_persist resp hcache

/-- Witness for the amended C2: the spec's scenario — fetch `["b","a"]`
successfully, then select the permutation `["a","b"]`; and, on a state
whose cache already holds the signature `"a||b"`, a permuted selection is a
pure cache hit. -/
theorem selectionCache_at_most_once_witness :
    (∀ a ∈ [ Action.setSelectedPdfs ["b", "a"]
               (Except.ok (CombinedFieldsResponse.mk [] none)),
             Action.setSelectedPdfs ["a", "b"]
               (Except.ok (CombinedFieldsResponse.mk [] none)) ], okFetchAction a) ∧
    ((runTrace initialState
        [ Action.setSelectedPdfs ["b", "a"]
            (Except.ok (CombinedFieldsResponse.mk [] none)),
          Action.setSelectedPdfs ["a", "b"]
            (Except.ok (CombinedFieldsResponse.mk [] none)) ]).2.countP
      (fun c => selectionSignature c = "a||b")) ≤ 1 ∧
    (["b", "a"] : List String).Perm ["a", "b"] ∧
    recordGet (selectionSignature ["a", "b"])
        ({ initialState with fieldsCache := [("a||b", [])] } : StoreState).fieldsCache =
      some [] ∧
    (runStep { initialState with fieldsCache := [("a||b", [])] }
        (Action.setSelectedPdfs ["b", "a"]
          (Except.error (ServiceError.mk "x" 0 "")))).calls = [] := by
  have hok : ∀ a ∈ [ Action.setSelectedPdfs ["b", "a"]
        (Except.ok (CombinedFieldsResponse.mk [] none)),
      Action.setSelectedPdfs ["a", "b"]
        (Except.ok (CombinedFieldsResponse.mk [] none)) ], okFetchAction a := by
    intro a ha
    fin_cases ha <;> trivial
  have hperm : (["b", "a"] : List String).Perm ["a", "b"] := List.Perm.swap "a" "b" []
  have hcache : recordGet (selectionSignature ["a", "b"])
      ({ initialState with fieldsCache := [("a||b", [])] } : StoreState).fieldsCache =
      some [] := by decide
  refine ⟨hok, selectionCache_at_most_once.1 _ hok "a||b", hperm, hcache, ?_⟩
  exact (selectionCache_at_most_once.2.1 { initialState with fieldsCache := [("a||b", [])] }
    ["a", "b"] ["b", "a"] [] (Except.error (ServiceError.mk "x" 0 "")) hcache hperm).1

/-- Counterexample to C2 as stated: when the first call for selection `["a"]`
fails, nothing is cached, and a second `setSelectedPdfs(["a"])` invokes the
service again — two invocations for the single signature `"a"`. -/
theorem selectionCache_refetch_counterexample :
    ¬ (((runTrace initialState
        [ Action.setSelectedPdfs ["a"]
            (Except.error (ServiceError.mk "boom" 500 "/api/combined_fields")),
          Action.setSelectedPdfs ["a"]
            (Except.error (ServiceError.mk "boom" 500 "/api/combined_fields")) ]).2.countP
      (fun c => selectionSignature c = "a")) ≤ 1) := by
  decide

end PdfComplete
